import Mathlib

/-! Shallow embedding of `src/app.py` (AI study-note maker).

The program's only algorithmic content is: heading extraction from an
outline via a multiline regular expression, a streaming detail generator
that yields only non-empty content deltas, and a driver that checks
preconditions, performs one outline call, and then loops over the
extracted headings accumulating a final note string.

Strings are modelled as `List Char`.  The regex
`re.findall(pattern, outline, re.MULTILINE)` with pattern
"start of line, one or more hash marks, one or more whitespace
characters, capture the rest of the line" is embedded as an executable
scanner: the pattern has no real backtracking (each of its three parts
is a greedy run over disjoint character classes), so a match attempt at
a position is exactly: maximal run of hash marks (non-empty), then
maximal run of whitespace (non-empty; whitespace includes the newline,
so this run can cross line boundaries), then the capture: the maximal
run of non-newline characters.  `re.findall` scans position by
position; the anchor restricts match attempts to line starts (position
zero or a position just after a newline), and scanning resumes at the
end of each match.
-/

namespace NoteMaker

/-- Whitespace as matched by Python's regex whitespace class on a `str`
(the class used in the extraction pattern at `src/app.py:109`): the six
ASCII whitespace characters plus the Unicode whitespace code points. -/
def isSpaceChar (c : Char) : Bool :=
  c == ' ' || c == '\t' || c == '\n' || c == '\r' || c == '\x0b' || c == '\x0c' ||
  c == '\x1c' || c == '\x1d' || c == '\x1e' || c == '\x1f' ||
  c == '\x85' || c == '\xa0' || c == '\u1680' ||
  ('\u2000' ≤ c && c ≤ '\u200a') ||
  c == '\u2028' || c == '\u2029' || c == '\u202f' || c == '\u205f' || c == '\u3000'

/-- The hash-mark character class of the extraction pattern. -/
def isHash (c : Char) : Bool := c == '#'

/-- The dot character class of the extraction pattern: any character
except a newline (the Python pattern is not in DOTALL mode). -/
def notNL (c : Char) : Bool := !(c == '\n')

/-- One match attempt of the extraction pattern of `src/app.py:109` at
the current position (the line-start anchor is handled by the caller):
a non-empty maximal run of hash marks, then a non-empty maximal run of
whitespace, then the captured maximal run of non-newline characters.
Returns `some (capture, remainder-after-the-match)` or `none`. -/
def matchHeadingAt (cs : List Char) : Option (List Char × List Char) :=
  if cs.takeWhile isHash = [] then none
  else if (cs.dropWhile isHash).takeWhile isSpaceChar = [] then none
  else
    some (((cs.dropWhile isHash).dropWhile isSpaceChar).takeWhile notNL,
          ((cs.dropWhile isHash).dropWhile isSpaceChar).dropWhile notNL)

/-- The `re.findall` scan of `src/app.py:109`: walk the text position by
position; `atStart` records whether the current position is a line start
(position zero, or just after a newline), which is where the multiline
anchor lets a match begin; after a successful match, scanning resumes at
the end of the match.  `fuel` only bounds the recursion; every step
consumes at least one character, so `fuel = length` is always enough. -/
def findAllAux : Nat → List Char → Bool → List (List Char)
  | 0, _, _ => []
  | _ + 1, [], _ => []
  | fuel + 1, c :: rest, true =>
    match matchHeadingAt (c :: rest) with
    | some (cap, after) => cap :: findAllAux fuel after false
    | none => findAllAux fuel rest (c == '\n')
  | fuel + 1, c :: rest, false => findAllAux fuel rest (c == '\n')

/-- `headings = re.findall(r"...", outline, re.MULTILINE)` at
`src/app.py:109`: the ordered list of captured heading titles. -/
def extractHeadings (outline : List Char) : List (List Char) :=
  findAllAux outline.length outline true

/-- The scan with its canonical fuel, from an arbitrary position state;
`extractHeadings outline` is `scanFrom outline true` by definition. -/
def scanFrom (cs : List Char) (atStart : Bool) : List (List Char) :=
  findAllAux cs.length cs atStart

/-- Split a text into its lines (separator: newline), as Python's
`str.split` on the newline character does: `"a\nb"` gives two lines,
a trailing newline yields a final empty line.  Used to state the
per-line claims about the extractor. -/
def splitLines : List Char → List (List Char)
  | [] => [[]]
  | c :: rest =>
    if c = '\n' then [] :: splitLines rest
    else
      match splitLines rest with
      | [] => [[c]]
      | l :: ls => (c :: l) :: ls

/-- A heading-formatted line in the specification's sense: a line with a
hash-mark prefix. -/
def headingFormatted (l : List Char) : Bool :=
  match l with
  | [] => false
  | c :: _ => isHash c

/-- The title of a heading line: its content after the leading run of
hash marks and the first whitespace run. -/
def titleOf (l : List Char) : List Char :=
  (l.dropWhile isHash).dropWhile isSpaceChar

/-- A line is well-formed in the specification's sense when, if it is
heading-formatted at all, it consists of a run of one or more hash
marks, then a whitespace run, then a (non-empty) title, all on the one
line. -/
def wellFormedLine (l : List Char) : Prop :=
  headingFormatted l = true →
    ((l.dropWhile isHash).takeWhile isSpaceChar ≠ [] ∧ titleOf l ≠ [])

instance (l : List Char) : Decidable (wellFormedLine l) := by
  unfold wellFormedLine
  infer_instance

/-- The per-line reading of the extractor that the specification gives:
each heading-formatted line contributes its title, other lines
contribute nothing. -/
def lineExtract (l : List Char) : Option (List Char) :=
  if headingFormatted l = true then some (titleOf l) else none

/-- The message delta of one streamed chunk (`chunk.choices[0].delta`):
its `content` field is either absent or a string. -/
structure Delta where
  content : Option (List Char)
deriving DecidableEq

/-- One chunk of a streaming response; the code only reads
`chunk.choices[0].delta`, so the single delta is the whole model. -/
structure StreamChunk where
  delta : Delta
deriving DecidableEq

/-- The observable behaviour of one streaming call: the chunks the
network delivered before the stream ended or raised, and whether it
ended by raising an exception. -/
structure StreamBehavior where
  delivered : List StreamChunk
  fails : Bool
deriving DecidableEq

/-- Python truthiness of the `content` field, as tested by
`if chunk.choices[0].delta.content:` at `src/app.py:67`: `None` and the
empty string are falsy. -/
def contentTruthy (c : StreamChunk) : Bool :=
  match c.delta.content with
  | none => false
  | some s => !s.isEmpty

/-- The fragments yielded by the generator loop of
`src/app.py:65-68`: one fragment per delivered chunk whose delta
carries truthy (non-absent, non-empty) content, in delivery order. -/
def yieldedFragments (chunks : List StreamChunk) : List (List Char) :=
  chunks.filterMap (fun c =>
    match c.delta.content with
    | none => none
    | some s => if s.isEmpty then none else some s)

/-- User-visible notices and artifacts surfaced by the app. -/
inductive Event
  | missingKey
  | missingTranscript
  | outlineError (msg : List Char)
  | outlineSuccess
  | detailError (heading : List Char)
  | noteComplete
  | downloadOffered (content : List Char)
deriving DecidableEq

/-- API calls issued to the completion endpoint. -/
inductive Call
  | outline
  | detail (heading : List Char)
deriving DecidableEq

/-- Where the driver run ends: still idle (precondition failed), stopped
after the outline stage (falsy outline), or complete (heading loop
finished). -/
inductive DriverState
  | idle
  | stoppedBeforeLoop
  | complete
deriving DecidableEq

/-- The observable outcome of one driver run: API calls made in order,
notices surfaced in order, the final note if it was ever created, and
the end state. -/
structure DriverResult where
  calls : List Call
  events : List Event
  finalNote : Option (List Char)
  state : DriverState
deriving DecidableEq

/-- `generate_outline` (`src/app.py:23-43`): on success returns the
response text; on any exception surfaces an error notice and returns
the `None` sentinel.  The network outcome is the `Except` argument. -/
def generate_outline (api : Except (List Char) (List Char)) :
    Option (List Char) × List Event :=
  match api with
  | Except.ok content => (some content, [])
  | Except.error e => (none, [Event.outlineError e])

/-- `generate_details_streaming` (`src/app.py:46-70`) as observed by its
consumer: the yielded fragments, and the error notice naming the heading
when the stream raised (the exception is swallowed inside the
generator, so the consumer only sees the fragments stop). -/
def generate_details_streaming (heading : List Char) (b : StreamBehavior) :
    List (List Char) × List Event :=
  (yieldedFragments b.delivered,
   if b.fails then [Event.detailError heading] else [])

/-- The per-heading loop of `src/app.py:116-127`: for each heading in
order, append `"## " + heading + "\n\n"` to the accumulator, drain the
detail stream (`st.write_stream` concatenates the yielded fragments),
and append the drained text plus `"\n\n"`.  Returns the final
accumulator, the notices surfaced, and the detail calls made. -/
def noteLoop (details : List Char → StreamBehavior) :
    List (List Char) → List Char → List Char × List Event × List Call
  | [], acc => (acc, [], [])
  | h :: hs, acc =>
    let fullHeading := ['#', '#', ' '] ++ h
    let acc1 := acc ++ fullHeading ++ ['\n', '\n']
    let fullResponse := (generate_details_streaming h (details h)).1.flatten
    let acc2 := acc1 ++ fullResponse ++ ['\n', '\n']
    let r := noteLoop details hs acc2
    (r.1, (generate_details_streaming h (details h)).2 ++ r.2.1,
     Call.detail h :: r.2.2)

/-- The section a single heading contributes to the final note. -/
def sectionOf (details : List Char → StreamBehavior) (h : List Char) :
    List Char :=
  ['#', '#', ' '] ++ h ++ ['\n', '\n']
    ++ (yieldedFragments (details h).delivered).flatten ++ ['\n', '\n']

/-- The driver block of `src/app.py:92-137`: precondition checks on the
key and the transcript, one outline call, the Python truthiness test
`if outline:` (falsy for both the `None` sentinel and the empty
string), then heading extraction, the per-heading loop, the completion
notice and the download offer. -/
def runDriver (api_key chat_log : List Char)
    (outlineApi : Except (List Char) (List Char))
    (details : List Char → StreamBehavior) : DriverResult :=
  if api_key = [] then
    ⟨[], [Event.missingKey], none, DriverState.idle⟩
  else if chat_log = [] then
    ⟨[], [Event.missingTranscript], none, DriverState.idle⟩
  else
    match generate_outline outlineApi with
    | (none, evs) => ⟨[Call.outline], evs, none, DriverState.stoppedBeforeLoop⟩
    | (some outline, evs) =>
      if outline = [] then
        ⟨[Call.outline], evs, none, DriverState.stoppedBeforeLoop⟩
      else
        let headings := extractHeadings outline
        let r := noteLoop details headings []
        ⟨Call.outline :: r.2.2,
         evs ++ [Event.outlineSuccess] ++ r.2.1
           ++ [Event.noteComplete, Event.downloadOffered r.1],
         some r.1,
         DriverState.complete⟩

/-! The theorems.  First, facts about maximal runs and the scanner. -/

theorem space_not_hash {c : Char} (h : isSpaceChar c = true) : isHash c = false := by
  cases hc : isHash c with
  | false => rfl
  | true =>
    have : c = '#' := by simpa [isHash] using hc
    subst this
    exact absurd h (by decide)

theorem newline_is_space : isSpaceChar '\n' = true := by decide

theorem notNL_newline : notNL '\n' = false := by decide

theorem eq_newline_of_notNL_false {c : Char} (h : notNL c = false) : c = '\n' := by
  simpa [notNL] using h

theorem ne_newline_of_notNL {c : Char} (h : notNL c = true) : ¬c = '\n' := by
  simpa [notNL] using h

theorem takeWhile_run_append {p : Char → Bool} {xs : List Char} {y : Char}
    {ys : List Char} (hxs : ∀ x ∈ xs, p x = true) (hy : p y = false) :
    (xs ++ y :: ys).takeWhile p = xs := by
  induction xs with
  | nil => simp [List.takeWhile_cons, hy]
  | cons a as ih =>
    have ha : p a = true := hxs a (by simp)
    simp only [List.cons_append, List.takeWhile_cons_of_pos ha]
    rw [ih (fun x hx => hxs x (by simp [hx]))]

theorem dropWhile_run_append {p : Char → Bool} {xs : List Char} {y : Char}
    {ys : List Char} (hxs : ∀ x ∈ xs, p x = true) (hy : p y = false) :
    (xs ++ y :: ys).dropWhile p = y :: ys := by
  induction xs with
  | nil => simp [List.dropWhile_cons, hy]
  | cons a as ih =>
    have ha : p a = true := hxs a (by simp)
    simp only [List.cons_append, List.dropWhile_cons_of_pos ha]
    exact ih (fun x hx => hxs x (by simp [hx]))

theorem takeWhile_all {p : Char → Bool} {xs : List Char}
    (hxs : ∀ x ∈ xs, p x = true) : xs.takeWhile p = xs :=
  List.takeWhile_eq_self_iff.mpr hxs

theorem dropWhile_all {p : Char → Bool} {xs : List Char}
    (hxs : ∀ x ∈ xs, p x = true) : xs.dropWhile p = [] :=
  List.dropWhile_eq_nil_iff.mpr hxs

theorem dropWhile_head_false {p : Char → Bool} {l : List Char} {y : Char}
    {ys : List Char} (h : l.dropWhile p = y :: ys) : p y = false := by
  induction l with
  | nil => simp at h
  | cons a as ih =>
    by_cases ha : p a
    · exact ih (by simpa [List.dropWhile_cons_of_pos ha] using h)
    · rw [List.dropWhile_cons_of_neg ha] at h
      cases h
      simpa using ha

theorem matchHeadingAt_nil : matchHeadingAt [] = none := by
  simp [matchHeadingAt]

theorem matchHeadingAt_no_hash {c : Char} {rest : List Char}
    (h : isHash c = false) : matchHeadingAt (c :: rest) = none := by
  simp [matchHeadingAt, List.takeWhile_cons, h]

theorem matchHeadingAt_after_length {cs cap after : List Char}
    (h : matchHeadingAt cs = some (cap, after)) : after.length < cs.length := by
  unfold matchHeadingAt at h
  split at h
  · exact absurd h (by simp)
  · split at h
    · exact absurd h (by simp)
    · rename_i h1 h2
      rw [Option.some.injEq, Prod.mk.injEq] at h
      obtain ⟨-, hafter⟩ := h
      have e1 : cs.takeWhile isHash ++ cs.dropWhile isHash = cs :=
        List.takeWhile_append_dropWhile isHash cs
      have e2 : (cs.dropWhile isHash).takeWhile isSpaceChar
          ++ (cs.dropWhile isHash).dropWhile isSpaceChar = cs.dropWhile isHash :=
        List.takeWhile_append_dropWhile isSpaceChar (cs.dropWhile isHash)
      have l1 : 0 < (cs.takeWhile isHash).length := List.length_pos.mpr h1
      have l2 : 0 < ((cs.dropWhile isHash).takeWhile isSpaceChar).length :=
        List.length_pos.mpr h2
      have l3 := congrArg List.length e1
      have l4 := congrArg List.length e2
      rw [List.length_append] at l3 l4
      have l5 : after.length
          ≤ ((cs.dropWhile isHash).dropWhile isSpaceChar).length := by
        rw [← hafter]
        exact (List.dropWhile_sublist notNL).length_le
      omega

theorem findAllAux_fuel :
    ∀ (f1 : Nat) (cs : List Char) (b : Bool) (f2 : Nat), cs.length ≤ f1 →
      cs.length ≤ f2 → findAllAux f1 cs b = findAllAux f2 cs b := by
  intro f1
  induction f1 with
  | zero =>
    intro cs b f2 h1 _
    have : cs = [] := List.length_eq_zero.mp (Nat.le_zero.mp h1)
    subst this
    cases f2 <;> rfl
  | succ g1 ih =>
    intro cs b f2 h1 h2
    cases cs with
    | nil => cases f2 <;> rfl
    | cons c rest =>
      cases f2 with
      | zero => simp at h2
      | succ g2 =>
        simp only [List.length_cons] at h1 h2
        have hr1 : rest.length ≤ g1 := by omega
        have hr2 : rest.length ≤ g2 := by omega
        cases b with
        | false =>
          simp only [findAllAux]
          exact ih rest (c == '\n') g2 hr1 hr2
        | true =>
          simp only [findAllAux]
          cases hm : matchHeadingAt (c :: rest) with
          | none => exact ih rest (c == '\n') g2 hr1 hr2
          | some v =>
            obtain ⟨cap, after⟩ := v
            have hlt := matchHeadingAt_after_length hm
            simp only [List.length_cons] at hlt
            have ha1 : after.length ≤ g1 := by omega
            have ha2 : after.length ≤ g2 := by omega
            show cap :: findAllAux g1 after false = cap :: findAllAux g2 after false
            rw [ih after false g2 ha1 ha2]

theorem scanFrom_match {c : Char} {rest cap after : List Char}
    (h : matchHeadingAt (c :: rest) = some (cap, after)) :
    scanFrom (c :: rest) true = cap :: scanFrom after false := by
  have hlt := matchHeadingAt_after_length h
  simp only [List.length_cons] at hlt
  unfold scanFrom
  simp only [List.length_cons, findAllAux, h]
  rw [findAllAux_fuel rest.length after false after.length (by omega) le_rfl]

theorem scanFrom_nomatch {c : Char} {rest : List Char}
    (h : matchHeadingAt (c :: rest) = none) :
    scanFrom (c :: rest) true = scanFrom rest (c == '\n') := by
  unfold scanFrom
  simp only [List.length_cons, findAllAux, h]

theorem scanFrom_false_step (c : Char) (rest : List Char) :
    scanFrom (c :: rest) false = scanFrom rest (c == '\n') := by
  unfold scanFrom
  simp only [List.length_cons, findAllAux]

theorem scanFrom_nil (b : Bool) : scanFrom [] b = [] := rfl

theorem scanFrom_line_false {l : List Char} (hl : ∀ c ∈ l, notNL c = true) :
    ∀ rest : List Char, scanFrom (l ++ '\n' :: rest) false = scanFrom rest true := by
  induction l with
  | nil =>
    intro rest
    rw [List.nil_append, scanFrom_false_step]
    have hb : ('\n' == '\n') = true := by decide
    rw [hb]
  | cons a as ih =>
    intro rest
    rw [List.cons_append, scanFrom_false_step]
    have hb : (a == '\n') = false := by simpa [notNL] using hl a (by simp)
    rw [hb]
    exact ih (fun c hc => hl c (by simp [hc])) rest

theorem scanFrom_line_false_end {l : List Char}
    (hl : ∀ c ∈ l, notNL c = true) : scanFrom l false = [] := by
  induction l with
  | nil => rfl
  | cons a as ih =>
    rw [scanFrom_false_step]
    have hb : (a == '\n') = false := by simpa [notNL] using hl a (by simp)
    rw [hb]
    exact ih (fun c hc => hl c (by simp [hc]))

theorem scanFrom_nonheading_line {l : List Char}
    (hl : ∀ c ∈ l, notNL c = true) (hh : headingFormatted l = false) :
    ∀ rest : List Char, scanFrom (l ++ '\n' :: rest) true = scanFrom rest true := by
  intro rest
  cases l with
  | nil =>
    rw [List.nil_append, scanFrom_nomatch (matchHeadingAt_no_hash (by decide))]
    have hb : ('\n' == '\n') = true := by decide
    rw [hb]
  | cons a as =>
    have ha : isHash a = false := by simpa [headingFormatted] using hh
    rw [List.cons_append, scanFrom_nomatch (matchHeadingAt_no_hash ha)]
    have hb : (a == '\n') = false := by simpa [notNL] using hl a (by simp)
    rw [hb]
    exact scanFrom_line_false (fun c hc => hl c (by simp [hc])) rest

theorem scanFrom_nonheading_line_end {l : List Char}
    (hl : ∀ c ∈ l, notNL c = true) (hh : headingFormatted l = false) :
    scanFrom l true = [] := by
  cases l with
  | nil => rfl
  | cons a as =>
    have ha : isHash a = false := by simpa [headingFormatted] using hh
    rw [scanFrom_nomatch (matchHeadingAt_no_hash ha)]
    have hb : (a == '\n') = false := by simpa [notNL] using hl a (by simp)
    rw [hb]
    exact scanFrom_line_false_end (fun c hc => hl c (by simp [hc]))

theorem splitLines_line {l : List Char} (hl : ∀ c ∈ l, notNL c = true) :
    ∀ rest : List Char, splitLines (l ++ '\n' :: rest) = l :: splitLines rest := by
  induction l with
  | nil => intro rest; simp [splitLines]
  | cons a as ih =>
    intro rest
    have ha : ¬(a = '\n') := ne_newline_of_notNL (hl a (by simp))
    rw [List.cons_append]
    show splitLines (a :: (as ++ '\n' :: rest)) = (a :: as) :: splitLines rest
    simp only [splitLines, if_neg ha, ih (fun c hc => hl c (by simp [hc])) rest]

theorem splitLines_single {l : List Char} (hl : ∀ c ∈ l, notNL c = true) :
    splitLines l = [l] := by
  induction l with
  | nil => rfl
  | cons a as ih =>
    have ha : ¬(a = '\n') := ne_newline_of_notNL (hl a (by simp))
    simp only [splitLines, if_neg ha, ih (fun c hc => hl c (by simp [hc]))]

theorem matchHeadingAt_decomp {hs ws t tail : List Char}
    (hhs : ∀ c ∈ hs, isHash c = true) (hhs0 : hs ≠ [])
    (hws : ∀ c ∈ ws, isSpaceChar c = true) (hws0 : ws ≠ [])
    (htn : ∀ c ∈ t, notNL c = true)
    (hthead : ∃ t0 t', t = t0 :: t' ∧ isSpaceChar t0 = false)
    (htail : tail = [] ∨ ∃ r, tail = '\n' :: r) :
    matchHeadingAt (hs ++ ws ++ t ++ tail) = some (t, tail) := by
  obtain ⟨t0, t', rfl, ht0⟩ := hthead
  obtain ⟨w0, ws', rfl⟩ : ∃ w0 ws', ws = w0 :: ws' := by
    cases ws with
    | nil => exact absurd rfl hws0
    | cons w0 ws' => exact ⟨w0, ws', rfl⟩
  have harg : hs ++ (w0 :: ws') ++ (t0 :: t') ++ tail
      = hs ++ w0 :: (ws' ++ t0 :: (t' ++ tail)) := by simp
  have hw0 : isHash w0 = false := space_not_hash (hws w0 (by simp))
  have e1 : (hs ++ w0 :: (ws' ++ t0 :: (t' ++ tail))).takeWhile isHash = hs :=
    takeWhile_run_append hhs hw0
  have e2 : (hs ++ w0 :: (ws' ++ t0 :: (t' ++ tail))).dropWhile isHash
      = w0 :: (ws' ++ t0 :: (t' ++ tail)) :=
    dropWhile_run_append hhs hw0
  have hshape : w0 :: (ws' ++ t0 :: (t' ++ tail))
      = (w0 :: ws') ++ t0 :: (t' ++ tail) := by simp
  have e3 : (w0 :: (ws' ++ t0 :: (t' ++ tail))).takeWhile isSpaceChar
      = w0 :: ws' := by
    rw [hshape]; exact takeWhile_run_append hws ht0
  have e4 : (w0 :: (ws' ++ t0 :: (t' ++ tail))).dropWhile isSpaceChar
      = t0 :: (t' ++ tail) := by
    rw [hshape]; exact dropWhile_run_append hws ht0
  rw [harg]
  rcases htail with rfl | ⟨r, rfl⟩
  · have e5 : (t0 :: (t' ++ ([] : List Char))).takeWhile notNL = t0 :: t' := by
      rw [List.append_nil]; exact takeWhile_all htn
    have e6 : (t0 :: (t' ++ ([] : List Char))).dropWhile notNL = [] := by
      rw [List.append_nil]; exact dropWhile_all htn
    simp only [matchHeadingAt, e1, e2, e3, e4, e5, e6]
    rw [if_neg hhs0, if_neg (by simp)]
  · have hshape2 : t0 :: (t' ++ '\n' :: r) = (t0 :: t') ++ '\n' :: r := by simp
    have e5 : (t0 :: (t' ++ '\n' :: r)).takeWhile notNL = t0 :: t' := by
      rw [hshape2]; exact takeWhile_run_append htn notNL_newline
    have e6 : (t0 :: (t' ++ '\n' :: r)).dropWhile notNL = '\n' :: r := by
      rw [hshape2]; exact dropWhile_run_append htn notNL_newline
    simp only [matchHeadingAt, e1, e2, e3, e4, e5, e6]
    rw [if_neg hhs0, if_neg (by simp)]

theorem heading_line_decomp {L : List Char} (hh : headingFormatted L = true)
    (hwl : wellFormedLine L) :
    ∃ hs ws t0 t', L = hs ++ ws ++ t0 :: t'
      ∧ (∀ c ∈ hs, isHash c = true) ∧ hs ≠ []
      ∧ (∀ c ∈ ws, isSpaceChar c = true) ∧ ws ≠ []
      ∧ isSpaceChar t0 = false ∧ t0 :: t' = titleOf L := by
  obtain ⟨hws0, ht0⟩ := hwl hh
  obtain ⟨t0, t', htt⟩ : ∃ t0 t', titleOf L = t0 :: t' := by
    cases htl : titleOf L with
    | nil => exact absurd htl ht0
    | cons t0 t' => exact ⟨t0, t', rfl⟩
  refine ⟨L.takeWhile isHash, (L.dropWhile isHash).takeWhile isSpaceChar, t0, t',
    ?_, fun c hc => List.mem_takeWhile_imp hc, ?_,
    fun c hc => List.mem_takeWhile_imp hc, hws0,
    dropWhile_head_false htt, htt.symm⟩
  · rw [← htt, List.append_assoc]
    show L = L.takeWhile isHash
      ++ ((L.dropWhile isHash).takeWhile isSpaceChar
          ++ (L.dropWhile isHash).dropWhile isSpaceChar)
    rw [List.takeWhile_append_dropWhile, List.takeWhile_append_dropWhile]
  · cases L with
    | nil => simp [headingFormatted] at hh
    | cons a as =>
      have ha : isHash a = true := by simpa [headingFormatted] using hh
      simp [List.takeWhile_cons_of_pos ha]

theorem scan_lines :
    ∀ (n : Nat) (outline : List Char), outline.length ≤ n →
      (∀ l ∈ splitLines outline, wellFormedLine l) →
      scanFrom outline true = (splitLines outline).filterMap lineExtract := by
  intro n
  induction n with
  | zero =>
    intro outline hlen _
    have : outline = [] := List.eq_nil_of_length_eq_zero (Nat.le_zero.mp hlen)
    subst this
    decide
  | succ n ih =>
    intro outline hlen hwf
    obtain ⟨L, R, houtline, hLnl, hR⟩ :
        ∃ L R : List Char, outline = L ++ R ∧ (∀ c ∈ L, notNL c = true) ∧
          (R = [] ∨ ∃ R' : List Char, R = '\n' :: R') := by
      refine ⟨outline.takeWhile notNL, outline.dropWhile notNL,
        (List.takeWhile_append_dropWhile notNL outline).symm,
        fun c hc => List.mem_takeWhile_imp hc, ?_⟩
      cases hd : outline.dropWhile notNL with
      | nil => exact Or.inl rfl
      | cons r0 R' =>
        have hr0 := eq_newline_of_notNL_false (dropWhile_head_false hd)
        exact Or.inr ⟨R', by rw [hr0]⟩
    subst houtline
    rcases hR with rfl | ⟨R', rfl⟩
    · rw [List.append_nil] at hwf ⊢
      have hsl : splitLines L = [L] := splitLines_single hLnl
      cases hhf : headingFormatted L with
      | false =>
        rw [scanFrom_nonheading_line_end hLnl hhf, hsl]
        simp [lineExtract, hhf]
      | true =>
        have hwl : wellFormedLine L := hwf L (by rw [hsl]; simp)
        obtain ⟨hs, ws, t0, t', heq, hhs, hhs0, hws, hws0, ht0, htt⟩ :=
          heading_line_decomp hhf hwl
        have hmatch : matchHeadingAt L = some (t0 :: t', []) := by
          have := @matchHeadingAt_decomp hs ws (t0 :: t') [] hhs hhs0 hws hws0
            (fun c hc => hLnl c (by rw [heq]; simp [hc]))
            ⟨t0, t', rfl, ht0⟩ (Or.inl rfl)
          rw [List.append_nil] at this
          rw [heq]
          exact this
        cases hout : L with
        | nil => rw [hout] at hhf; simp [headingFormatted] at hhf
        | cons a as =>
          rw [hout] at hmatch
          rw [scanFrom_match hmatch, scanFrom_nil, ← hout, hsl]
          simp [lineExtract, hhf, ← htt]
    · have hlenR : R'.length ≤ n := by
        simp only [List.length_append, List.length_cons] at hlen
        omega
      have hsl : splitLines (L ++ '\n' :: R') = L :: splitLines R' :=
        splitLines_line hLnl R'
      have hwf' : ∀ l ∈ splitLines R', wellFormedLine l :=
        fun l hl => hwf l (by rw [hsl]; exact List.mem_cons_of_mem _ hl)
      have hIH := ih R' hlenR hwf'
      cases hhf : headingFormatted L with
      | false =>
        rw [scanFrom_nonheading_line hLnl hhf R', hIH, hsl]
        simp [lineExtract, hhf]
      | true =>
        have hwl : wellFormedLine L := hwf L (by rw [hsl]; simp)
        obtain ⟨hs, ws, t0, t', heq, hhs, hhs0, hws, hws0, ht0, htt⟩ :=
          heading_line_decomp hhf hwl
        have hmatch : matchHeadingAt (L ++ '\n' :: R')
            = some (t0 :: t', '\n' :: R') := by
          have := @matchHeadingAt_decomp hs ws (t0 :: t') ('\n' :: R') hhs hhs0
            hws hws0 (fun c hc => hLnl c (by rw [heq]; simp [hc]))
            ⟨t0, t', rfl, ht0⟩ (Or.inr ⟨R', rfl⟩)
          rw [heq, List.append_assoc, List.append_assoc]
          rw [List.append_assoc, List.append_assoc] at this
          exact this
        cases hout : L with
        | nil => rw [hout] at hhf; simp [headingFormatted] at hhf
        | cons a as =>
          rw [hout, List.cons_append] at hmatch
          have hskip : scanFrom ('\n' :: R') false = scanFrom R' true := by
            rw [scanFrom_false_step]
            have hb : ('\n' == '\n') = true := by decide
            rw [hb]
          rw [List.cons_append, scanFrom_match hmatch, hskip, hIH,
            ← List.cons_append, ← hout, hsl]
          simp [lineExtract, hhf, ← htt]

/-- The heading extractor, characterised line by line: under the
well-formedness hypothesis, each heading-formatted line contributes
exactly its title and every other line contributes nothing. -/
theorem extract_lines (outline : List Char)
    (hwf : ∀ l ∈ splitLines outline, wellFormedLine l) :
    extractHeadings outline = (splitLines outline).filterMap lineExtract :=
  scan_lines outline.length outline le_rfl hwf

/-- If no line of the outline starts with a hash mark, the extractor
returns the empty sequence. -/
theorem extract_of_no_heading (outline : List Char)
    (h : ∀ l ∈ splitLines outline, headingFormatted l = false) :
    extractHeadings outline = [] := by
  rw [extract_lines outline
    (fun l hl hf => absurd hf (by simp [h l hl]))]
  refine List.filterMap_eq_nil_iff.mpr ?_
  intro l hl
  simp [lineExtract, h l hl]

/-! Characterisations of the driver loop and the driver itself. -/

theorem noteLoop_spec (details : List Char → StreamBehavior) :
    ∀ (hs : List (List Char)) (acc : List Char),
      noteLoop details hs acc =
        (acc ++ (hs.map (sectionOf details)).flatten,
         (hs.filter (fun h => (details h).fails)).map Event.detailError,
         hs.map Call.detail) := by
  intro hs
  induction hs with
  | nil => intro acc; simp [noteLoop]
  | cons h t ih =>
    intro acc
    simp only [noteLoop, ih, generate_details_streaming, List.map_cons,
      List.flatten_cons, List.filter_cons]
    cases hf : (details h).fails <;>
      simp [sectionOf, hf, List.append_assoc]

theorem runDriver_ok {key chat outline : List Char}
    (details : List Char → StreamBehavior)
    (hk : key ≠ []) (hc : chat ≠ []) (ho : outline ≠ []) :
    runDriver key chat (Except.ok outline) details =
      ⟨Call.outline :: (extractHeadings outline).map Call.detail,
       Event.outlineSuccess ::
         (((extractHeadings outline).filter
             (fun h => (details h).fails)).map Event.detailError
           ++ [Event.noteComplete,
               Event.downloadOffered
                 (((extractHeadings outline).map (sectionOf details)).flatten)]),
       some (((extractHeadings outline).map (sectionOf details)).flatten),
       DriverState.complete⟩ := by
  simp only [runDriver, generate_outline, if_neg hk, if_neg hc, if_neg ho,
    noteLoop_spec, List.nil_append, List.singleton_append, List.append_assoc,
    List.cons_append]

theorem extractHeadings_eq_scan (o : List Char) :
    extractHeadings o = scanFrom o true := rfl

theorem scanFrom_match_end {cs cap : List Char}
    (h : matchHeadingAt cs = some (cap, [])) : scanFrom cs true = [cap] := by
  cases cs with
  | nil => rw [matchHeadingAt_nil] at h; cases h
  | cons c rest => rw [scanFrom_match h, scanFrom_nil]

/-! The claims. -/

/-- C1: for every outline text in which every heading-formatted line is
well-formed (a run of one or more hash marks, then a whitespace run,
then the title, all on one line), the heading extractor returns a
sequence with exactly one string per heading-formatted line, in the
lines' order of appearance (duplicates kept), each string equal to that
line's content after its leading hash run and first whitespace run;
lines that are not heading-formatted contribute nothing. -/
theorem C1_heading_extraction_per_line (outline : List Char)
    (hwf : ∀ l ∈ splitLines outline, wellFormedLine l) :
    extractHeadings outline = (splitLines outline).filterMap lineExtract :=
  extract_lines outline hwf

theorem C1_witness :
    (∀ l ∈ splitLines
        ['#', ' ', 'A', '\n', '#', '#', ' ', 'B', ' ', 'b', '\n',
         'p', '\n', '\n', '#', '#', '#', ' ', 'A'],
      wellFormedLine l) ∧
    extractHeadings
        ['#', ' ', 'A', '\n', '#', '#', ' ', 'B', ' ', 'b', '\n',
         'p', '\n', '\n', '#', '#', '#', ' ', 'A']
      = (splitLines
          ['#', ' ', 'A', '\n', '#', '#', ' ', 'B', ' ', 'b', '\n',
           'p', '\n', '\n', '#', '#', '#', ' ', 'A']).filterMap lineExtract :=
  ⟨by decide, C1_heading_extraction_per_line _ (by decide)⟩

/-- C9 (implicit): in the extraction pattern the whitespace class
matches newline characters, so for an outline consisting of a line of
hash marks only (optionally followed by trailing whitespace) with a
non-heading line after it, the extractor captures the text of that
following line as a heading title, rather than skipping the marker-only
line or returning an empty title for it. -/
theorem C9_hash_only_line_captures_next_line (k m : Nat) (t0 : Char)
    (t' : List Char) (hk : 1 ≤ k) (ht0s : isSpaceChar t0 = false)
    (_ht0h : isHash t0 = false) (htn : ∀ c ∈ t0 :: t', notNL c = true) :
    extractHeadings
        (List.replicate k '#' ++ List.replicate m ' ' ++ '\n' :: t0 :: t')
      = [t0 :: t'] := by
  obtain ⟨k', rfl⟩ : ∃ k', k = k' + 1 := ⟨k - 1, by omega⟩
  have hmatch : matchHeadingAt
      (List.replicate (k' + 1) '#' ++ List.replicate m ' ' ++ '\n' :: t0 :: t')
      = some (t0 :: t', []) := by
    have hws : ∀ c ∈ List.replicate m ' ' ++ ['\n'], isSpaceChar c = true := by
      intro c hc
      rcases List.mem_append.mp hc with hc | hc
      · rw [List.eq_of_mem_replicate hc]; decide
      · simp only [List.mem_singleton] at hc; rw [hc]; decide
    have hdec := @matchHeadingAt_decomp (List.replicate (k' + 1) '#')
      (List.replicate m ' ' ++ ['\n']) (t0 :: t') []
      (fun c hc => by rw [List.eq_of_mem_replicate hc]; decide)
      (by simp) hws (by simp) htn ⟨t0, t', rfl, ht0s⟩ (Or.inl rfl)
    rw [List.append_nil] at hdec
    rw [show List.replicate (k' + 1) '#' ++ List.replicate m ' '
          ++ '\n' :: t0 :: t'
        = List.replicate (k' + 1) '#'
          ++ (List.replicate m ' ' ++ ['\n']) ++ (t0 :: t') from by simp]
    exact hdec
  rw [extractHeadings_eq_scan, scanFrom_match_end hmatch]

theorem C9_witness :
    (1 ≤ 2 ∧ isSpaceChar 'f' = false ∧ isHash 'f' = false ∧
      ∀ c ∈ ['f', 'o', 'o'], notNL c = true) ∧
    extractHeadings
        (List.replicate 2 '#' ++ List.replicate 0 ' ' ++ '\n' :: 'f' :: ['o', 'o'])
      = ['f' :: ['o', 'o']] :=
  ⟨by decide, C9_hash_only_line_captures_next_line 2 0 'f' ['o', 'o']
    (by decide) (by decide) (by decide) (by decide)⟩

/-- C10: heading extraction is a pure function of the outline text:
running the extraction twice on the same input yields two identical
sequences. -/
theorem C10_extraction_deterministic (o1 o2 : List Char) (h : o1 = o2) :
    extractHeadings o1 = extractHeadings o2 := by rw [h]

theorem C10_witness :
    (['#', ' ', 'a'] : List Char) = ['#', ' ', 'a'] ∧
    extractHeadings ['#', ' ', 'a'] = extractHeadings ['#', ' ', 'a'] :=
  ⟨rfl, C10_extraction_deterministic ['#', ' ', 'a'] ['#', ' ', 'a'] rfl⟩

/-- C2: at every point of the per-heading loop — after any processed
prefix `pre` of the heading list, with `suf` still to process — the
final-note accumulator equals the concatenation, over the headings
processed so far in extraction order, of the normalised heading line
`"## " + heading`, then a blank line, then that heading's fully drained
detail text, then a blank line; in particular every processed heading's
normalised heading line followed by its concatenated detail fragments
and the blank-line separators occurs contiguously inside the
accumulator. -/
theorem C2_final_note_invariant (details : List Char → StreamBehavior)
    (hs pre suf : List (List Char)) (_hsplit : hs = pre ++ suf) :
    (noteLoop details pre []).1 = (pre.map (sectionOf details)).flatten ∧
    ∀ h ∈ pre,
      (['#', '#', ' '] ++ h ++ ['\n', '\n']
        ++ (yieldedFragments (details h).delivered).flatten ++ ['\n', '\n'])
      <:+: (noteLoop details pre []).1 := by
  refine ⟨by rw [noteLoop_spec]; simp, ?_⟩
  intro h hmem
  rw [noteLoop_spec]
  simp only [List.nil_append]
  have hm : sectionOf details h ∈ pre.map (sectionOf details) :=
    List.mem_map_of_mem _ hmem
  have hinf := List.infix_of_mem_flatten hm
  simpa [sectionOf, List.append_assoc] using hinf

theorem C2_witness :
    ([['a'], ['b']] : List (List Char)) = [['a']] ++ [['b']] ∧
    ((noteLoop (fun _ => ⟨[⟨⟨some ['x']⟩⟩], false⟩) [['a']] []).1
        = ([['a']].map (sectionOf (fun _ => ⟨[⟨⟨some ['x']⟩⟩], false⟩))).flatten ∧
      ∀ h ∈ ([['a']] : List (List Char)),
        (['#', '#', ' '] ++ h ++ ['\n', '\n']
          ++ (yieldedFragments ((fun _ => ⟨[⟨⟨some ['x']⟩⟩], false⟩ :
                List Char → StreamBehavior) h).delivered).flatten
          ++ ['\n', '\n'])
        <:+: (noteLoop (fun _ => ⟨[⟨⟨some ['x']⟩⟩], false⟩) [['a']] []).1) :=
  ⟨rfl, C2_final_note_invariant (fun _ => ⟨[⟨⟨some ['x']⟩⟩], false⟩)
    [['a'], ['b']] [['a']] [['b']] rfl⟩

/-- C7: for every heading's stream, the detail streamer yields a
fragment exactly for the delivered chunks whose message delta carries
non-empty content — role-only, finish-reason-only and empty-content
chunks produce no fragment — and if the stream fails before any
truthy-content chunk is delivered, the yielded sequence is empty. -/
theorem C7_fragment_characterisation (chunks : List StreamChunk) :
    ((∀ c ∈ chunks, contentTruthy c = false) → yieldedFragments chunks = []) ∧
    ∀ s : List Char,
      s ∈ yieldedFragments chunks ↔ ∃ c ∈ chunks, c.delta.content = some s ∧ s ≠ [] := by
  constructor
  · intro hall
    refine List.filterMap_eq_nil_iff.mpr ?_
    intro c hc
    have ht := hall c hc
    cases hcc : c.delta.content with
    | none => simp [hcc]
    | some s =>
      rw [contentTruthy, hcc] at ht
      have hse : s.isEmpty = true := by simpa using ht
      show (if s.isEmpty = true then none else some s) = none
      rw [if_pos hse]
  · intro s
    rw [yieldedFragments, List.mem_filterMap]
    constructor
    · rintro ⟨c, hc, hf⟩
      refine ⟨c, hc, ?_⟩
      cases hcc : c.delta.content with
      | none => rw [hcc] at hf; cases hf
      | some u =>
        rw [hcc] at hf
        change (if u.isEmpty = true then none else some u) = some s at hf
        by_cases hu : u.isEmpty = true
        · rw [if_pos hu] at hf; cases hf
        · rw [if_neg hu] at hf
          cases hf
          exact ⟨rfl, by simpa [List.isEmpty_iff] using hu⟩
    · rintro ⟨c, hc, hcc, hne⟩
      refine ⟨c, hc, ?_⟩
      rw [hcc]
      show (if s.isEmpty = true then none else some s) = some s
      rw [if_neg (by simpa [List.isEmpty_iff] using hne)]

theorem C7_witness :
    (∀ c ∈ ([⟨⟨none⟩⟩, ⟨⟨some []⟩⟩] : List StreamChunk),
      contentTruthy c = false) ∧
    yieldedFragments ([⟨⟨none⟩⟩, ⟨⟨some []⟩⟩] : List StreamChunk) = [] :=
  ⟨by decide, (C7_fragment_characterisation [⟨⟨none⟩⟩, ⟨⟨some []⟩⟩]).1 (by decide)⟩

/-- C5: if the outline-stage call raises any exception, the outline
generator surfaces a failure notice and returns the sentinel absence
rather than propagating the fault; the driver then makes zero detail
calls, the final note is never created, and the run halts before the
heading loop. -/
theorem C5_outline_failure_halts (key chat e : List Char)
    (details : List Char → StreamBehavior) (hk : key ≠ []) (hc : chat ≠ []) :
    generate_outline (Except.error e) = (none, [Event.outlineError e]) ∧
    runDriver key chat (Except.error e) details =
      ⟨[Call.outline], [Event.outlineError e], none,
       DriverState.stoppedBeforeLoop⟩ := by
  refine ⟨rfl, ?_⟩
  simp only [runDriver, if_neg hk, if_neg hc]
  rfl

theorem C5_witness :
    ((['k'] : List Char) ≠ [] ∧ (['t'] : List Char) ≠ []) ∧
    (generate_outline (Except.error ['e']) = (none, [Event.outlineError ['e']]) ∧
      runDriver ['k'] ['t'] (Except.error ['e']) (fun _ => ⟨[], false⟩) =
        ⟨[Call.outline], [Event.outlineError ['e']], none,
         DriverState.stoppedBeforeLoop⟩) :=
  ⟨⟨by decide, by decide⟩,
   C5_outline_failure_halts ['k'] ['t'] ['e'] (fun _ => ⟨[], false⟩)
     (by decide) (by decide)⟩

/-- C6: on the start action, an empty access key makes the driver
surface the missing-key notice, make zero API calls and stay idle; a
present key with an empty transcript makes it surface the
missing-transcript notice, make zero API calls and stay idle. -/
theorem C6_precondition_checks (key chat : List Char)
    (api : Except (List Char) (List Char))
    (details : List Char → StreamBehavior) :
    (key = [] →
      runDriver key chat api details
        = ⟨[], [Event.missingKey], none, DriverState.idle⟩) ∧
    (key ≠ [] → chat = [] →
      runDriver key chat api details
        = ⟨[], [Event.missingTranscript], none, DriverState.idle⟩) := by
  constructor
  · intro hk
    simp only [runDriver, if_pos hk]
  · intro hk hc
    simp only [runDriver, if_neg hk, if_pos hc]

theorem C6_witness :
    (runDriver [] ['t'] (Except.ok ['o']) (fun _ => ⟨[], false⟩)
      = ⟨[], [Event.missingKey], none, DriverState.idle⟩) ∧
    (runDriver ['k'] [] (Except.ok ['o']) (fun _ => ⟨[], false⟩)
      = ⟨[], [Event.missingTranscript], none, DriverState.idle⟩) :=
  ⟨(C6_precondition_checks [] ['t'] (Except.ok ['o']) (fun _ => ⟨[], false⟩)).1 rfl,
   (C6_precondition_checks ['k'] [] (Except.ok ['o']) (fun _ => ⟨[], false⟩)).2
     (by decide) rfl⟩

/-- C3 counterexample: the empty string is an outline text that the
outline stage can return successfully, and it contains zero
heading-formatted lines, yet the driver does not reach the complete
state and creates no final note, surfaces no completion notice and
offers no download — the truthiness test on the outline treats the
empty string like the failure sentinel. -/
theorem C3_counterexample :
    (∀ l ∈ splitLines [], headingFormatted l = false) ∧
    extractHeadings [] = [] ∧
    runDriver ['k'] ['t'] (Except.ok []) (fun _ => ⟨[], false⟩)
      = ⟨[Call.outline], [], none, DriverState.stoppedBeforeLoop⟩ ∧
    (runDriver ['k'] ['t'] (Except.ok []) (fun _ => ⟨[], false⟩)).state
      ≠ DriverState.complete := by decide

/-- C3 (amended): for every non-empty outline text that the outline
stage returns successfully and that contains zero heading-formatted
lines, the heading extractor returns an empty sequence, no detail-stage
call is made, and the driver still reaches the complete state with an
empty final note — completion notice surfaced and download offered — as
a valid outcome rather than an error.  (Amended from the original
claim only by excluding the empty outline text, which the driver's
truthiness test stops instead, as the counterexample shows.) -/
theorem C3_empty_extraction_completes (key chat outline : List Char)
    (details : List Char → StreamBehavior)
    (hk : key ≠ []) (hc : chat ≠ []) (ho : outline ≠ [])
    (hnh : ∀ l ∈ splitLines outline, headingFormatted l = false) :
    extractHeadings outline = [] ∧
    runDriver key chat (Except.ok outline) details =
      ⟨[Call.outline],
       [Event.outlineSuccess, Event.noteComplete, Event.downloadOffered []],
       some [], DriverState.complete⟩ := by
  have hext : extractHeadings outline = [] := extract_of_no_heading outline hnh
  refine ⟨hext, ?_⟩
  rw [runDriver_ok details hk hc ho, hext]
  simp

theorem C3_witness :
    ((['k'] : List Char) ≠ [] ∧ (['t'] : List Char) ≠ [] ∧
      (['x'] : List Char) ≠ [] ∧
      ∀ l ∈ splitLines ['x'], headingFormatted l = false) ∧
    (extractHeadings ['x'] = [] ∧
      runDriver ['k'] ['t'] (Except.ok ['x']) (fun _ => ⟨[], false⟩) =
        ⟨[Call.outline],
         [Event.outlineSuccess, Event.noteComplete, Event.downloadOffered []],
         some [], DriverState.complete⟩) :=
  ⟨⟨by decide, by decide, by decide, by decide⟩,
   C3_empty_extraction_completes ['k'] ['t'] ['x'] (fun _ => ⟨[], false⟩)
     (by decide) (by decide) (by decide) (by decide)⟩

/-- C4: if a heading's detail stream fails after yielding one or more
fragments, the fragments already yielded remain in that heading's
section of the final note (no rollback), an error notice naming the
offending heading is surfaced, and the per-heading loop nevertheless
issues a detail call for every extracted heading and reaches the
complete state. -/
theorem C4_kept_fragments_and_continues (key chat outline h : List Char)
    (details : List Char → StreamBehavior)
    (hk : key ≠ []) (hc : chat ≠ []) (ho : outline ≠ [])
    (hmem : h ∈ extractHeadings outline)
    (hfail : (details h).fails = true)
    (_hfrag : yieldedFragments (details h).delivered ≠ []) :
    (runDriver key chat (Except.ok outline) details).state
        = DriverState.complete ∧
    Event.detailError h
        ∈ (runDriver key chat (Except.ok outline) details).events ∧
    (runDriver key chat (Except.ok outline) details).calls
        = Call.outline :: (extractHeadings outline).map Call.detail ∧
    ∃ note, (runDriver key chat (Except.ok outline) details).finalNote
        = some note ∧
      (['#', '#', ' '] ++ h ++ ['\n', '\n']
        ++ (yieldedFragments (details h).delivered).flatten ++ ['\n', '\n'])
      <:+: note := by
  rw [runDriver_ok details hk hc ho]
  refine ⟨rfl, ?_, rfl, ?_⟩
  · apply List.mem_cons_of_mem
    apply List.mem_append_left
    exact List.mem_map_of_mem _ (List.mem_filter.mpr ⟨hmem, by simp [hfail]⟩)
  · refine ⟨_, rfl, ?_⟩
    have hm := List.mem_map_of_mem (sectionOf details) hmem
    have hinf := List.infix_of_mem_flatten hm
    simpa [sectionOf, List.append_assoc] using hinf

theorem C4_witness :
    ((['A'] : List Char) ∈ extractHeadings ['#', ' ', 'A'] ∧
      ((fun _ => (⟨[⟨⟨some ['x']⟩⟩], true⟩ : StreamBehavior))
          (['A'] : List Char)).fails = true ∧
      yieldedFragments ((fun _ => (⟨[⟨⟨some ['x']⟩⟩], true⟩ : StreamBehavior))
          (['A'] : List Char)).delivered ≠ []) ∧
    ((runDriver ['k'] ['t'] (Except.ok ['#', ' ', 'A'])
        (fun _ => ⟨[⟨⟨some ['x']⟩⟩], true⟩)).state = DriverState.complete ∧
      Event.detailError ['A']
        ∈ (runDriver ['k'] ['t'] (Except.ok ['#', ' ', 'A'])
            (fun _ => ⟨[⟨⟨some ['x']⟩⟩], true⟩)).events ∧
      (runDriver ['k'] ['t'] (Except.ok ['#', ' ', 'A'])
          (fun _ => ⟨[⟨⟨some ['x']⟩⟩], true⟩)).calls
        = Call.outline :: (extractHeadings ['#', ' ', 'A']).map Call.detail ∧
      ∃ note, (runDriver ['k'] ['t'] (Except.ok ['#', ' ', 'A'])
          (fun _ => ⟨[⟨⟨some ['x']⟩⟩], true⟩)).finalNote = some note ∧
        (['#', '#', ' '] ++ ['A'] ++ ['\n', '\n']
          ++ (yieldedFragments ((fun _ =>
                (⟨[⟨⟨some ['x']⟩⟩], true⟩ : StreamBehavior))
              (['A'] : List Char)).delivered).flatten ++ ['\n', '\n'])
        <:+: note) :=
  ⟨⟨by decide, rfl, by decide⟩,
   C4_kept_fragments_and_continues ['k'] ['t'] ['#', ' ', 'A'] ['A']
     (fun _ => ⟨[⟨⟨some ['x']⟩⟩], true⟩)
     (by decide) (by decide) (by decide) (by decide) rfl (by decide)⟩

/-- C8: every extracted heading is re-emitted as a heading line with
exactly two hash marks, regardless of how many hash marks its source
line had in the outline: for an outline consisting of one well-formed
heading line with `n ≥ 1` hash marks and a given title, the extractor
yields exactly the title, and the final note renders the section with
the fixed `"## "` prefix — flattening any nesting the outline
expressed. -/
theorem C8_heading_normalised (key chat : List Char) (n : Nat) (t0 : Char)
    (t' : List Char) (details : List Char → StreamBehavior)
    (hk : key ≠ []) (hc : chat ≠ []) (hn : 1 ≤ n)
    (ht0 : isSpaceChar t0 = false) (htn : ∀ c ∈ t0 :: t', notNL c = true) :
    extractHeadings (List.replicate n '#' ++ ' ' :: t0 :: t') = [t0 :: t'] ∧
    (runDriver key chat (Except.ok (List.replicate n '#' ++ ' ' :: t0 :: t'))
        details).finalNote
      = some (['#', '#', ' '] ++ (t0 :: t') ++ ['\n', '\n']
          ++ (yieldedFragments (details (t0 :: t')).delivered).flatten
          ++ ['\n', '\n']) := by
  obtain ⟨n', rfl⟩ : ∃ n', n = n' + 1 := ⟨n - 1, by omega⟩
  have hmatch : matchHeadingAt (List.replicate (n' + 1) '#' ++ ' ' :: t0 :: t')
      = some (t0 :: t', []) := by
    have hdec := @matchHeadingAt_decomp (List.replicate (n' + 1) '#')
      [' '] (t0 :: t') []
      (fun c hc => by rw [List.eq_of_mem_replicate hc]; decide)
      (by simp)
      (fun c hc => by rw [List.mem_singleton.mp hc]; decide) (by simp)
      htn ⟨t0, t', rfl, ht0⟩ (Or.inl rfl)
    rw [List.append_nil] at hdec
    rw [show List.replicate (n' + 1) '#' ++ ' ' :: t0 :: t'
        = List.replicate (n' + 1) '#' ++ [' '] ++ (t0 :: t') from by simp]
    exact hdec
  have hext : extractHeadings (List.replicate (n' + 1) '#' ++ ' ' :: t0 :: t')
      = [t0 :: t'] := by
    rw [extractHeadings_eq_scan, scanFrom_match_end hmatch]
  refine ⟨hext, ?_⟩
  have hne : List.replicate (n' + 1) '#' ++ ' ' :: t0 :: t' ≠ [] := by simp
  rw [runDriver_ok details hk hc hne, hext]
  simp [sectionOf, List.append_assoc]

theorem C8_witness :
    ((['k'] : List Char) ≠ [] ∧ (['t'] : List Char) ≠ [] ∧ 1 ≤ 3 ∧
      isSpaceChar 'A' = false ∧ ∀ c ∈ ['A'], notNL c = true) ∧
    (extractHeadings (List.replicate 3 '#' ++ ' ' :: 'A' :: []) = [['A']] ∧
      (runDriver ['k'] ['t']
          (Except.ok (List.replicate 3 '#' ++ ' ' :: 'A' :: []))
          (fun _ => ⟨[], false⟩)).finalNote
        = some (['#', '#', ' '] ++ ('A' :: []) ++ ['\n', '\n']
            ++ (yieldedFragments ((fun _ =>
                  (⟨[], false⟩ : StreamBehavior)) ('A' :: [])).delivered).flatten
            ++ ['\n', '\n'])) :=
  ⟨⟨by decide, by decide, by decide, by decide, by decide⟩,
   C8_heading_normalised ['k'] ['t'] 3 'A' [] (fun _ => ⟨[], false⟩)
     (by decide) (by decide) (by decide) (by decide) (by decide)⟩

end NoteMaker
